import Mathlib

/-!
Verification development for the ai-migrate migration orchestration engine.

The definitions below are a shallow embedding of the Python sources:
  * `src/ai_migrate/manifest.py`  — flatten, FileEntry, FileGroup, Manifest
  * `src/ai_migrate/projects.py`  — normalize_file_group, manifest_from_git,
    merge_manifests, run (the scheduler), process_one_fileset,
    process_one_with_sem
  * `src/ai_migrate/progress.py`  — the status registry interface
Machine-level details are modelled as: Python `int`/hash arithmetic over
`Nat` with explicit `% 2 ^ 32`, Python `dict` as an insertion-ordered
association list with last-write-wins values, the file system as an
association list of named manifests, and `asyncio` effects as explicit
event traces plus a small-step semaphore transition system.
-/

/-! ### SHA-256 (hashlib.sha256, used by FileGroup.group_name)

Faithful executable model of `sha256(data).hexdigest()` over byte lists;
words are `Nat` reduced `% 2 ^ 32`. -/

/-- UTF-8 encoding of one Unicode code point, as `str.encode()` produces. -/
def utf8Bytes (n : Nat) : List Nat :=
  if n < 128 then [n]
  else if n < 2048 then [192 + n / 64, 128 + n % 64]
  else if n < 65536 then [224 + n / 4096, 128 + (n / 64) % 64, 128 + n % 64]
  else [240 + n / 262144, 128 + (n / 4096) % 64, 128 + (n / 64) % 64, 128 + n % 64]

/-- Byte sequence of `s.encode()` for a Python `str`. -/
def utf8Encode (s : String) : List Nat :=
  s.data.flatMap (fun c => utf8Bytes c.toNat)

/-- 32-bit right rotation on a word below `2 ^ 32`. -/
def rotr32 (n x : Nat) : Nat :=
  (x >>> n) ||| ((x % (2 ^ n)) <<< (32 - n))

/-- SHA-256 round constants. -/
def sha256k : List Nat :=
  [1116352408, 1899447441, 3049323471, 3921009573, 961987163,
   1508970993, 2453635748, 2870763221, 3624381080, 310598401,
   607225278, 1426881987, 1925078388, 2162078206, 2614888103,
   3248222580, 3835390401, 4022224774, 264347078, 604807628,
   770255983, 1249150122, 1555081692, 1996064986, 2554220882,
   2821834349, 2952996808, 3210313671, 3336571891, 3584528711,
   113926993, 338241895, 666307205, 773529912, 1294757372,
   1396182291, 1695183700, 1986661051, 2177026350, 2456956037,
   2730485921, 2820302411, 3259730800, 3345764771, 3516065817,
   3600352804, 4094571909, 275423344, 430227734, 506948616,
   659060556, 883997877, 958139571, 1322822218, 1537002063,
   1747873779, 1955562222, 2024104815, 2227730452, 2361852424,
   2428436474, 2756734187, 3204031479, 3329325298]

/-- Working state of the SHA-256 compression function: eight 32-bit words. -/
structure Sha256State where
  a : Nat
  b : Nat
  c : Nat
  d : Nat
  e : Nat
  f : Nat
  g : Nat
  h : Nat
deriving DecidableEq

/-- Initial hash value H0 of SHA-256. -/
def sha256h0 : Sha256State :=
  ⟨1779033703, 3144134277, 1013904242, 2773480762,
   1359893119, 2600822924, 528734635, 1541459225⟩

/-- Message padding: append 0x80, zeros to 56 mod 64, then the 8-byte
big-endian bit length. -/
def sha256pad (msg : List Nat) : List Nat :=
  let len := msg.length
  let zeros := (120 - ((len + 1) % 64)) % 64
  let bitlen := len * 8
  msg ++ [128] ++ List.replicate zeros 0 ++
    [(bitlen >>> 56) % 256, (bitlen >>> 48) % 256, (bitlen >>> 40) % 256,
     (bitlen >>> 32) % 256, (bitlen >>> 24) % 256, (bitlen >>> 16) % 256,
     (bitlen >>> 8) % 256, bitlen % 256]

/-- Split a byte list into 64-byte chunks. -/
def chunks64 (l : List Nat) : List (List Nat) :=
  if h : l = [] then []
  else l.take 64 :: chunks64 (l.drop 64)
termination_by l.length
decreasing_by
  have : 0 < l.length := List.length_pos.mpr h
  simp [List.length_drop]
  omega

/-- Group bytes big-endian into 32-bit words. -/
def bytesToWords : List Nat → List Nat
  | b0 :: b1 :: b2 :: b3 :: rest =>
      (((b0 * 256 + b1) * 256 + b2) * 256 + b3) :: bytesToWords rest
  | _ => []

/-- Next word of the SHA-256 message schedule, from the 15th, 2nd, 16th and
7th most recent words. -/
def sha256nextWord (w : Array Nat) : Nat :=
  let x := w.getD (w.size - 15) 0
  let y := w.getD (w.size - 2) 0
  let s0 := rotr32 7 x ^^^ rotr32 18 x ^^^ (x >>> 3)
  let s1 := rotr32 17 y ^^^ rotr32 19 y ^^^ (y >>> 10)
  (w.getD (w.size - 16) 0 + s0 + w.getD (w.size - 7) 0 + s1) % 2 ^ 32

/-- Extend the 16 chunk words to the 64-entry message schedule. -/
def sha256schedule (w16 : List Nat) : List Nat :=
  ((List.range 48).foldl (fun w _ => w.push (sha256nextWord w)) w16.toArray).toList

/-- One SHA-256 compression round. -/
def sha256round (s : Sha256State) (kw : Nat × Nat) : Sha256State :=
  let s1 := rotr32 6 s.e ^^^ rotr32 11 s.e ^^^ rotr32 25 s.e
  let ch := (s.e &&& s.f) ^^^ ((s.e ^^^ (2 ^ 32 - 1)) &&& s.g)
  let temp1 := (s.h + s1 + ch + kw.1 + kw.2) % 2 ^ 32
  let s0 := rotr32 2 s.a ^^^ rotr32 13 s.a ^^^ rotr32 22 s.a
  let maj := (s.a &&& s.b) ^^^ (s.a &&& s.c) ^^^ (s.b &&& s.c)
  let temp2 := (s0 + maj) % 2 ^ 32
  ⟨(temp1 + temp2) % 2 ^ 32, s.a, s.b, s.c, (s.d + temp1) % 2 ^ 32, s.e, s.f, s.g⟩

/-- Compress one 64-byte chunk into the running hash state. -/
def sha256compress (hs : Sha256State) (chunk : List Nat) : Sha256State :=
  let ws := sha256schedule (bytesToWords chunk)
  let t := (sha256k.zip ws).foldl sha256round hs
  ⟨(hs.a + t.a) % 2 ^ 32, (hs.b + t.b) % 2 ^ 32, (hs.c + t.c) % 2 ^ 32,
   (hs.d + t.d) % 2 ^ 32, (hs.e + t.e) % 2 ^ 32, (hs.f + t.f) % 2 ^ 32,
   (hs.g + t.g) % 2 ^ 32, (hs.h + t.h) % 2 ^ 32⟩

/-- Big-endian bytes of a 32-bit word. -/
def wordBytes (x : Nat) : List Nat :=
  [(x >>> 24) % 256, (x >>> 16) % 256, (x >>> 8) % 256, x % 256]

/-- Lowercase hex digit. -/
def hexChar (n : Nat) : Char :=
  "0123456789abcdef".data.getD n '0'

/-- Two lowercase hex digits of a byte. -/
def hexByte (n : Nat) : List Char :=
  [hexChar (n / 16), hexChar (n % 16)]

/-- Model of `hashlib.sha256(s.encode()).hexdigest()`. -/
def sha256hexdigest (s : String) : String :=
  let final := (chunks64 (sha256pad (utf8Encode s))).foldl sha256compress sha256h0
  String.mk (([final.a, final.b, final.c, final.d,
               final.e, final.f, final.g, final.h].flatMap wordBytes).flatMap hexByte)

/-- First eight hex characters of the digest: `hexdigest()[:8]` in
`FileGroup.group_name` (manifest.py line 29). -/
def sha256hex8 (s : String) : String :=
  String.mk ((sha256hexdigest s).data.take 8)

/-! ### Path flattening (manifest.py) and branch-name recovery (projects.py) -/

/-- Model of Python `str.replace` for the single-character pattern `"/"`:
each slash becomes two underscores (manifest.py `flatten`, lines 10-11). -/
def flattenChars (l : List Char) : List Char :=
  l.flatMap (fun c => if c = '/' then ['_', '_'] else [c])

/-- flatten(filename) of manifest.py: `filename.replace("/", "__")`. -/
def flatten (filename : String) : String :=
  String.mk (flattenChars filename.data)

/-- Model of Python `str.replace("__", "/")`: a left-to-right scan replacing
non-overlapping occurrences of two underscores by one slash
(projects.py `manifest_from_git`, line 45). -/
def unflattenChars : List Char → List Char
  | [] => []
  | [c] => [c]
  | a :: b :: rest =>
      if a = '_' ∧ b = '_' then '/' :: unflattenChars rest
      else a :: unflattenChars (b :: rest)

/-- branch.replace("__", "/") on a whole string. -/
def unflatten (s : String) : String :=
  String.mk (unflattenChars s.data)

/-- Everything after the first slash: `branch.split("/", maxsplit=1)[1]`
(empty when the string has no slash, where Python would raise IndexError). -/
def afterFirstSlash (s : String) : String :=
  String.mk ((s.data.dropWhile (fun c => c ≠ '/')).drop 1)

/-- File name recovered from a git branch name in `manifest_from_git`
(projects.py line 45). -/
def branchFileName (branch : String) : String :=
  unflatten (afterFirstSlash branch)

/-! ### Data model (manifest.py) -/

/-- Legacy single-file manifest entry; `result` defaults to `"?"`
(manifest.py lines 14-16). -/
structure FileEntry where
  filename : String
  result : String := "?"
deriving DecidableEq

/-- Group of files migrated as one atomic unit; `result` defaults to `"?"`
(manifest.py lines 22-24). -/
structure FileGroup where
  files : List String
  result : String := "?"
deriving DecidableEq

/-- FileEntry.group_name (manifest.py lines 18-19). -/
def FileEntry.group_name (e : FileEntry) : String :=
  flatten e.filename

/-- Python `sorted` on strings: stable sort by the lexicographic order,
which coincides with Lean's `String` linear order on code points. -/
def sortStrings (l : List String) : List String :=
  l.mergeSort (fun a b => decide (a ≤ b))

/-- The hash input `",".join(sorted(self.files))` of manifest.py line 29. -/
def sortedJoin (files : List String) : String :=
  String.intercalate "," (sortStrings files)

/-- FileGroup.group_name (manifest.py lines 26-30).  `self.files[0]` raises
IndexError on an empty group; that case is totalized with `headD ""` (the
spec requires groups to be non-empty). -/
def FileGroup.group_name (g : FileGroup) : String :=
  if g.files.length == 1 then FileEntry.group_name ⟨g.files.headD "", "?"⟩
  else flatten (g.files.headD "") ++ "-" ++ sha256hex8 (sortedJoin g.files)

/-- Element of `Manifest.files : list[FileGroup | FileEntry]`. -/
inductive ManifestEntry where
  | entry (e : FileEntry)
  | group (g : FileGroup)
deriving DecidableEq

/-- f.group_name() on either shape of entry. -/
def ManifestEntry.group_name : ManifestEntry → String
  | .entry e => e.group_name
  | .group g => g.group_name

/-- f.result on either shape of entry. -/
def ManifestEntry.result : ManifestEntry → String
  | .entry e => e.result
  | .group g => g.result

/-- Assignment `f.result = r` on either shape of entry. -/
def ManifestEntry.withResult : ManifestEntry → String → ManifestEntry
  | .entry e, r => .entry { e with result := r }
  | .group g, r => .group { g with result := r }

/-- Manifest (manifest.py lines 33-42) with the documented field defaults.
The `time` field (a datetime with `default_factory=datetime.now`) is kept
as an opaque string; no claim depends on its value. -/
structure Manifest where
  target_repo_ref : String := ""
  target_repo_remote : String := ""
  migrate_repo_ref : String := ""
  files : List ManifestEntry := []
  system_prompt : String := "{project_dir}/system_prompt.md"
  verify_cmd : String := "{py} {project_dir}/verify.py"
  pre_verify_cmd : String := "{py} {project_dir}/verify.py --pre"
  time : String := ""
deriving DecidableEq

/-- normalize_file_group (projects.py lines 33-39). -/
def normalize_file_group : ManifestEntry → FileGroup
  | .group g => g
  | .entry e => ⟨[e.filename], e.result⟩

/-- manifest_from_git (projects.py lines 42-47) over an explicit branch
listing `(sha, branch, status, msg)`; `get_branches` itself lives in the
git module, absent from src, so the listing is a parameter. -/
def manifest_from_git (branches : List (String × String × String × String)) : Manifest :=
  { files := branches.map (fun b => ManifestEntry.entry ⟨branchFileName b.2.1, b.2.2.1⟩) }

/-! ### merge_manifests (projects.py lines 50-55)

Python's `dict` is modelled as an insertion-ordered association list:
a later assignment to an existing key replaces the value in place (keeping
the key's original position), a new key is appended at the end. -/

/-- One `entries[k] = v` assignment on the dict model. -/
def dictInsert (d : List (String × ManifestEntry)) (k : String) (v : ManifestEntry) :
    List (String × ManifestEntry) :=
  if (d.map Prod.fst).contains k then
    d.map (fun p => if p.1 = k then (p.1, v) else p)
  else d ++ [(k, v)]

/-- The comprehension `{f.group_name(): f for f in manifest1.files}`. -/
def dictOfFiles (files : List ManifestEntry) : List (String × ManifestEntry) :=
  files.foldl (fun d f => dictInsert d f.group_name f) []

/-- Membership test `k in entries`. -/
def containsKey (d : List (String × ManifestEntry)) (k : String) : Bool :=
  (d.map Prod.fst).contains k

/-- The mutation `entries[k].result = "pass"` (it rewrites every pair whose
key is `k`; in an actual dict there is at most one). -/
def setPass (d : List (String × ManifestEntry)) (k : String) :
    List (String × ManifestEntry) :=
  d.map (fun p => if p.1 = k then (p.1, p.2.withResult "pass") else p)

/-- Body of the `for f in manifest2.files` loop of merge_manifests. -/
def mergeStep (d : List (String × ManifestEntry)) (f : ManifestEntry) :
    List (String × ManifestEntry) :=
  if f.result == "pass" && containsKey d f.group_name then setPass d f.group_name
  else d

/-- merge_manifests (projects.py lines 50-55): build the dict from
`manifest1.files`, upgrade matching pass entries from `manifest2.files`,
and return `manifest1` with `files := list(entries.values())`. -/
def merge_manifests (manifest1 manifest2 : Manifest) : Manifest :=
  { manifest1 with
    files := (manifest2.files.foldl mergeStep (dictOfFiles manifest1.files)).map Prod.snd }

/-! ### Manifest JSON parsing (manifest.py via pydantic)

Model of `Manifest.model_validate_json` restricted to the JSON shapes the
model classes declare.  Unset fields take the defaults written in
manifest.py lines 15-16, 23-24 and 34-42; an element of `files` carrying a
`files` key validates as a FileGroup and one carrying a `filename` key as a
FileEntry (the pydantic union `FileGroup | FileEntry`, tried left to
right). -/

/-- JSON values. -/
inductive Json where
  | str (s : String)
  | num (n : Int)
  | jbool (b : Bool)
  | null
  | arr (elems : List Json)
  | obj (fields : List (String × Json))

/-- First field with the given key, as pydantic sees parsed JSON objects. -/
def getField (kvs : List (String × Json)) (k : String) : Option Json :=
  (kvs.find? (fun p => p.1 == k)).map Prod.snd

/-- A string field with a default for the unset case; a present field of
any other shape is a validation error. -/
def parseStrField (kvs : List (String × Json)) (k defaultVal : String) : Option String :=
  match getField kvs k with
  | none => some defaultVal
  | some (.str s) => some s
  | some _ => none

/-- An array of strings. -/
def stringList : List Json → Option (List String)
  | [] => some []
  | .str s :: rest => (stringList rest).map (s :: ·)
  | _ => none

/-- Validate one element of `files` as a FileEntry (`filename` required,
`result` defaulting to `"?"`). -/
def parseFileEntry (kvs : List (String × Json)) : Option FileEntry :=
  match getField kvs "filename", parseStrField kvs "result" "?" with
  | some (.str fn), some r => some ⟨fn, r⟩
  | _, _ => none

/-- Validate one element of `files` as a FileGroup (`files` required,
`result` defaulting to `"?"`). -/
def parseFileGroup (kvs : List (String × Json)) : Option FileGroup :=
  match getField kvs "files", parseStrField kvs "result" "?" with
  | some (.arr xs), some r => (stringList xs).map (fun fs => ⟨fs, r⟩)
  | _, _ => none

/-- Validate one element of the `files` array against the union
`FileGroup | FileEntry`. -/
def parseEntry (j : Json) : Option ManifestEntry :=
  match j with
  | .obj kvs =>
      if (getField kvs "files").isSome then (parseFileGroup kvs).map .group
      else (parseFileEntry kvs).map .entry
  | _ => none

/-- Validate every element of the `files` array. -/
def parseEntries : List Json → Option (List ManifestEntry)
  | [] => some []
  | j :: rest =>
      match parseEntry j, parseEntries rest with
      | some e, some es => some (e :: es)
      | _, _ => none

/-- The `files` field, defaulting to the empty list. -/
def parseFiles (kvs : List (String × Json)) : Option (List ManifestEntry) :=
  match getField kvs "files" with
  | none => some []
  | some (.arr xs) => parseEntries xs
  | some _ => none

/-- Manifest.model_validate_json on an already-lexed JSON value, with the
field defaults of manifest.py lines 34-42. -/
def parseManifest (j : Json) : Option Manifest :=
  match j with
  | .obj kvs =>
      match parseStrField kvs "target_repo_ref" "",
            parseStrField kvs "target_repo_remote" "",
            parseStrField kvs "migrate_repo_ref" "",
            parseFiles kvs,
            parseStrField kvs "system_prompt" "{project_dir}/system_prompt.md",
            parseStrField kvs "verify_cmd" "{py} {project_dir}/verify.py",
            parseStrField kvs "pre_verify_cmd" "{py} {project_dir}/verify.py --pre",
            parseStrField kvs "time" "" with
      | some a, some b, some c, some fs, some sp, some vc, some pvc, some t =>
          some ⟨a, b, c, fs, sp, vc, pvc, t⟩
      | _, _, _, _, _, _, _, _ => none
  | _ => none

/-! ### The scheduler (projects.py `run`, lines 58-194)

The attempt body `run_migration` and the exception `FailedPreVerification`
live in migrate.py, which is not under src; per the spec's error taxonomy
an attempt either returns normally, fails its pre-verification baseline, or
raises some other exception, so the attempt is a parameter of the model.
Status-registry calls are modelled as an emitted event trace: progress.py
under src defines the registry but not the `update_message`, `mark_passed`
and `mark_failed` methods the scheduler invokes (only their call sites are
in src), so the recording interface follows the spec's status-change /
message-change event contract.  `asyncio` task interleaving is modelled by
an explicit completion order; the file system is an association list of
named manifests with `open(..., "w")` create-or-truncate semantics. -/

/-- Modelled from the spec: the terminal behavior of one `run_migration`
attempt (migrate.py is absent from src).  `error` stands for any raised
exception other than FailedPreVerification. -/
inductive AttemptOutcome where
  | success
  | failedPreVerification
  | error (msg : String)
deriving DecidableEq

/-- Modelled from the spec: status-change / message-change events of the
status registry, plus the start of an attempt (the `run_migration` call). -/
inductive Event where
  | addStatus (name : String)
  | updateMessage (name msg : String)
  | markPassed (name : String)
  | markFailed (name : String)
  | startAttempt (files : List String)
deriving DecidableEq

/-- Whether an event registers a status tracker. -/
def Event.isAddStatus : Event → Bool
  | .addStatus _ => true
  | _ => false

/-- Whether an event starts an attempt. -/
def Event.isStartAttempt : Event → Bool
  | .startAttempt _ => true
  | _ => false

/-- The `new_result` value recorded by process_one_fileset (projects.py
lines 115-137): `"pass"` on normal return, `"fail-pre-verify"` on
FailedPreVerification, `"fail"` on any other exception. -/
def new_result : AttemptOutcome → String
  | .success => "pass"
  | .failedPreVerification => "fail-pre-verify"
  | .error _ => "fail"

/-- Python `Path(s).name`: the last slash-separated component. -/
def pathName (s : String) : String :=
  (s.splitOn "/").getLastD s

/-- The task name of a file set (projects.py lines 156-158): base name of
the first file, with a `" (+n)"` suffix for groups of more than one file. -/
def task_name (file_set : FileGroup) : String :=
  let base := pathName (file_set.files.headD "")
  if file_set.files.length > 1 then
    base ++ " (+" ++ toString (file_set.files.length - 1) ++ ")"
  else base

/-- process_one_fileset (projects.py lines 103-142): emit the status
events of the try/except/finally and record one FileGroup result.  The
log-file and git-sha side effects are not modelled; the `finally` always
clears the message. -/
def process_one_fileset (files : FileGroup) (tname : String) (o : AttemptOutcome) :
    List Event × FileGroup :=
  ([Event.updateMessage tname "Running...", Event.startAttempt files.files] ++
     (match o with
      | .success => [Event.markPassed tname]
      | .failedPreVerification => [Event.markFailed tname]
      | .error _ => [Event.markFailed tname]) ++
     [Event.updateMessage tname ""],
   ⟨files.files, new_result o⟩)

/-- process_one_with_sem (projects.py lines 146-152): the body runs under
the semaphore (modelled separately as `SemStep`); its `except Exception`
catches only errors escaping process_one_fileset, which consumes every
attempt outcome itself, so here it is the identity wrapper. -/
def process_one_with_sem (files : FileGroup) (tname : String) (o : AttemptOutcome) :
    List Event × FileGroup :=
  process_one_fileset files tname o

/-- The manifest after the optional resume merge (projects.py lines 76-78). -/
def effective_manifest (manifest0 : Manifest)
    (branches : List (String × String × String × String)) (resume : Bool) : Manifest :=
  if resume then merge_manifests manifest0 (manifest_from_git branches) else manifest0

/-- The initial file list (projects.py lines 84-87): groups from the
command-line files when given (Python `if files:` is false for `None` and
for an empty list), otherwise the normalized manifest entries. -/
def initial_file_list (manifest : Manifest) (files : Option (List String)) :
    List FileGroup :=
  match files with
  | some (f :: fs) => (f :: fs).map (fun f => FileGroup.mk [f] "?")
  | _ => manifest.files.map normalize_file_group

/-- The work list the TaskGroup iterates (projects.py lines 96-97); note
the `only_failed` filter runs after the emptiness check of lines 89-94. -/
def work_list (manifest : Manifest) (files : Option (List String))
    (only_failed : Bool) : List FileGroup :=
  if only_failed then
    (initial_file_list manifest files).filter (fun f => f.result ≠ "pass")
  else initial_file_list manifest files

/-- Registration events of the TaskGroup loop (projects.py lines 154-162). -/
def setup_events (work : List FileGroup) : List Event :=
  work.flatMap (fun g =>
    [Event.addStatus (task_name g), Event.updateMessage (task_name g) "Waiting..."])

/-- All tasks run to completion (the TaskGroup's structured join); `order`
is the completion order in which their appends to `results` land. -/
def run_tasks (work : List FileGroup) (outcomes : Nat → AttemptOutcome)
    (order : List Nat) : List Event × List FileGroup :=
  let per := order.map (fun i =>
    process_one_with_sem (work.getD i ⟨[], "?"⟩) (task_name (work.getD i ⟨[], "?"⟩))
      (outcomes i))
  (per.flatMap Prod.fst, per.map Prod.snd)

/-- File-system model: named manifest files. -/
abbrev FileSys := List (String × Manifest)

/-- Model of `open(name, "w")` followed by a full write: truncate an
existing file of that name, or create a new one. -/
def fsWrite (fs : FileSys) (name : String) (content : Manifest) : FileSys :=
  if (fs.map Prod.fst).contains name then
    fs.map (fun p => if p.1 = name then (p.1, content) else p)
  else fs ++ [(name, content)]

/-- Content of a named file. -/
def fsRead (fs : FileSys) (name : String) : Option Manifest :=
  (fs.find? (fun p => p.1 == name)).map Prod.snd

/-- The output file name `f"manifest-{ts}.json"` (projects.py lines
176-177), `ts` being the run-end timestamp `%Y%m%d-%H%M%S`. -/
def results_file_name (ts : String) : String :=
  "manifest-" ++ ts ++ ".json"

/-- The persisted result manifest (projects.py lines 179-186):
`manifest.model_copy` with the run's results and revision ids. -/
def result_manifest (manifest : Manifest) (results : List FileGroup)
    (target_sha my_sha ts : String) : Manifest :=
  { manifest with
    files := results.map ManifestEntry.group,
    target_repo_ref := target_sha,
    migrate_repo_ref := my_sha,
    time := ts }

/-- Observable outcome of one `run` call. -/
structure RunOutput where
  results : List FileGroup
  events : List Event
  fs : FileSys
deriving DecidableEq

/-- The scheduler `run` (projects.py lines 58-194): load/merge the
manifest, build the work list, abort early when it is empty (lines 89-94,
before the status registry is created), otherwise register every group,
execute all attempts, and persist one timestamped result manifest. -/
def run (manifest0 : Manifest) (branches : List (String × String × String × String))
    (resume : Bool) (files : Option (List String)) (only_failed : Bool)
    (outcomes : Nat → AttemptOutcome) (order : List Nat)
    (target_sha my_sha ts : String) (fs0 : FileSys) : RunOutput :=
  let manifest := effective_manifest manifest0 branches resume
  if (initial_file_list manifest files).isEmpty then ⟨[], [], fs0⟩
  else
    let work := work_list manifest files only_failed
    let t := run_tasks work outcomes order
    ⟨t.2, setup_events work ++ t.1,
     fsWrite fs0 (results_file_name ts) (result_manifest manifest t.2 target_sha my_sha ts)⟩

/-- Default of the `max_workers` parameter of run (projects.py line 64),
the width of the counting semaphore. -/
def max_workers_default : Nat := 8

/-! ### Semaphore-bounded concurrency (projects.py lines 144-152)

Small-step model of `asyncio.Semaphore(max_workers)` with one task per
file group: a task acquires a slot (`async with sem`), runs its body, and
releases the slot when the body finishes. -/

/-- Phase of one task: created and awaiting the semaphore, holding a slot
and running its body, or finished. -/
inductive TaskPhase where
  | waiting
  | running
  | done
deriving DecidableEq

/-- Scheduler state: the phase of every task plus the free slots of the
semaphore. -/
structure SemState where
  tasks : List TaskPhase
  avail : Nat
deriving DecidableEq

/-- Interleaving steps: a waiting task may acquire a free slot and start
running; a running task may finish and release its slot.  The body of
`process_one_with_sem` executes only inside the `running` phase. -/
inductive SemStep : SemState → SemState → Prop
  | acquire (s : SemState) (i : Nat) (hw : s.tasks[i]? = some .waiting)
      (hs : 0 < s.avail) : SemStep s ⟨s.tasks.set i .running, s.avail - 1⟩
  | finish (s : SemState) (i : Nat) (hr : s.tasks[i]? = some .running) :
      SemStep s ⟨s.tasks.set i .done, s.avail + 1⟩

/-- Start of a run with concurrency limit `m` and `k` file groups: every
task is waiting, all `m` slots are free. -/
def semInit (m k : Nat) : SemState :=
  ⟨List.replicate k .waiting, m⟩

/-- States reachable during such a run. -/
def SemReachable (m k : Nat) (s : SemState) : Prop :=
  Relation.ReflTransGen SemStep (semInit m k) s

/-- Number of attempts executing concurrently. -/
def countRunning (s : SemState) : Nat :=
  s.tasks.countP (· == .running)

/-! ### Auxiliary definitions used by the theorem statements -/

/-- Claim-side description of merging (spec sections 4.2 and 8): a base
entry becomes "pass" when some incoming entry with result "pass" has the
same group identity, and is unchanged otherwise. -/
def mergeSpecEntry (incoming : List ManifestEntry) (f : ManifestEntry) : ManifestEntry :=
  if incoming.any (fun g => g.result == "pass" && f.group_name == g.group_name)
  then f.withResult "pass" else f

/-- Last entry of a list carrying the given group identity. -/
def lastWith (files : List ManifestEntry) (k : String) : Option ManifestEntry :=
  files.foldl (fun acc f => if f.group_name == k then some f else acc) none

/-- Spec well-formedness of an entry: a FileGroup holds a non-empty file
list (`self.files[0]` raises IndexError in Python otherwise). -/
def entryWF : ManifestEntry → Bool
  | .entry _ => true
  | .group g => !g.files.isEmpty

/-- Pointwise effect of one merge-loop iteration on one dict pair: the pair
is upgraded to "pass" exactly when the incoming entry passes and carries the
pair's key. -/
def passPointwise (f : ManifestEntry) (p : String × ManifestEntry) :
    String × ManifestEntry :=
  if f.result == "pass" && p.1 == f.group_name then (p.1, p.2.withResult "pass") else p

/-- Adjacent characters that keep the `__`-encoding of paths reversible:
no two adjacent underscores, and no underscore adjacent to a slash. -/
def safePair (a b : Char) : Prop :=
  ¬(a = '_' ∧ b = '_') ∧ ¬(a = '_' ∧ b = '/') ∧ ¬(a = '/' ∧ b = '_')

/-- Whether a character list contains two adjacent underscores (the `__`
substring of the claim). -/
def hasUU : List Char → Bool
  | a :: b :: rest => (a = '_' && b = '_') || hasUU (b :: rest)
  | _ => false

instance (a b : Char) : Decidable (safePair a b) :=
  inferInstanceAs (Decidable (¬(a = '_' ∧ b = '_') ∧ ¬(a = '_' ∧ b = '/') ∧ ¬(a = '/' ∧ b = '_')))

/-- Executable check that every adjacent pair of characters is safe. -/
def safeChars : List Char → Bool
  | a :: b :: rest => decide (safePair a b) && safeChars (b :: rest)
  | _ => true

/-! ### Lemmas: path flattening round trip -/

/-- Flattening a cons of a slash. -/
theorem flattenChars_cons_slash (rest : List Char) :
    flattenChars ('/' :: rest) = '_' :: '_' :: flattenChars rest := by
  simp [flattenChars]

/-- Flattening a cons of a non-slash character. -/
theorem flattenChars_cons_other {c : Char} (hc : c ≠ '/') (rest : List Char) :
    flattenChars (c :: rest) = c :: flattenChars rest := by
  simp [flattenChars, hc]

/-- Unflattening consumes a leading double underscore. -/
theorem unflattenChars_uu (xs : List Char) :
    unflattenChars ('_' :: '_' :: xs) = '/' :: unflattenChars xs := by
  simp [unflattenChars]

/-- Unflattening passes a head through when the guard fails. -/
theorem unflattenChars_cons_of_guard {c x : Char} (h : ¬(c = '_' ∧ x = '_'))
    (xs : List Char) :
    unflattenChars (c :: x :: xs) = c :: unflattenChars (x :: xs) := by
  simp [unflattenChars, h]

/-- The safety check is preserved by dropping the head. -/
theorem safeChars_tail {c : Char} {l : List Char} (h : safeChars (c :: l) = true) :
    safeChars l = true := by
  cases l with
  | nil => rfl
  | cons d t =>
    have hsplit : safePair c d ∧ safeChars (d :: t) = true := by
      simpa [safeChars] using h
    exact hsplit.2

/-- Round trip on character lists for safely encoded paths. -/
theorem unflat_flat (l : List Char) (h : safeChars l = true) :
    unflattenChars (flattenChars l) = l := by
  induction l with
  | nil => rfl
  | cons c rest ih =>
    by_cases hc : c = '/'
    · subst hc
      rw [flattenChars_cons_slash, unflattenChars_uu, ih (safeChars_tail h)]
    · rw [flattenChars_cons_other hc]
      cases rest with
      | nil => simp [flattenChars, unflattenChars]
      | cons d rest' =>
        have hsplit : safePair c d ∧ safeChars (d :: rest') = true := by
          simpa [safeChars] using h
        have hpair : safePair c d := hsplit.1
        have hrest : safeChars (d :: rest') = true := hsplit.2
        have hx : ∃ x xs, flattenChars (d :: rest') = x :: xs ∧ ¬(c = '_' ∧ x = '_') := by
          by_cases hd : d = '/'
          · subst hd
            refine ⟨'_', '_' :: flattenChars rest', flattenChars_cons_slash rest', ?_⟩
            rintro ⟨hcu, -⟩
            exact hpair.2.1 ⟨hcu, rfl⟩
          · refine ⟨d, flattenChars rest', flattenChars_cons_other hd rest', ?_⟩
            rintro ⟨hcu, hdu⟩
            exact hpair.1 ⟨hcu, hdu⟩
        obtain ⟨x, xs, hfx, hguard⟩ := hx
        rw [hfx, unflattenChars_cons_of_guard hguard, ← hfx, ih hrest]

/-- Claim C10: flatten turns every "/" into "__" and resume matching
recovers a path from a branch name by turning every "__" back into "/";
the round trip is the identity whenever the path's flattened form is
unambiguous — no "__" substring and no "_" adjacent to a "/" — and some
path containing "__" comes back as a different path. -/
theorem flatten_round_trip_conditional :
    (∀ s : String, safeChars s.data = true → unflatten (flatten s) = s)
    ∧ unflatten (flatten "a__b") ≠ "a__b" := by
  constructor
  · intro s hs
    cases s with
    | mk data => simpa [unflatten, flatten] using congrArg String.mk (unflat_flat data hs)
  · decide

/-- Witness for C10's theorem at the concrete path "a_b/c". -/
theorem flatten_round_trip_witness :
    safeChars "a_b/c".data = true ∧ unflatten (flatten "a_b/c") = "a_b/c" :=
  ⟨by decide, flatten_round_trip_conditional.1 "a_b/c" (by decide)⟩

/-- Counterexample for C10 as stated: the path "a_/b" contains no "__"
substring, yet flattening to "a___b" and unflattening returns "a/_b". -/
theorem flatten_round_trip_counterexample :
    hasUU "a_/b".data = false
    ∧ flatten "a_/b" = "a___b"
    ∧ unflatten (flatten "a_/b") = "a/_b"
    ∧ unflatten (flatten "a_/b") ≠ "a_/b" := by
  refine ⟨by decide, by decide, by decide, by decide⟩

/-! ### Lemmas: group identity under permutation -/

/-- Sorting with mergeSort yields a list sorted by the string order. -/
theorem sortStrings_sorted (l : List String) :
    List.Sorted (· ≤ ·) (sortStrings l) := by
  have htrans : ∀ a b c : String,
      (fun a b : String => decide (a ≤ b)) a b = true →
      (fun a b : String => decide (a ≤ b)) b c = true →
      (fun a b : String => decide (a ≤ b)) a c = true := by
    intro a b c hab hbc
    simp only [decide_eq_true_eq] at *
    exact le_trans hab hbc
  have htotal : ∀ a b : String,
      ((fun a b : String => decide (a ≤ b)) a b ||
       (fun a b : String => decide (a ≤ b)) b a) = true := by
    intro a b
    simp only [Bool.or_eq_true, decide_eq_true_eq]
    exact le_total a b
  have := List.sorted_mergeSort htrans htotal l
  exact this.imp (fun h => of_decide_eq_true h)

/-- Python's sorted() depends only on the multiset of inputs. -/
theorem sortStrings_perm_eq {l₁ l₂ : List String} (hp : l₁.Perm l₂) :
    sortStrings l₁ = sortStrings l₂ :=
  List.eq_of_perm_of_sorted
    (((List.mergeSort_perm l₁ _).trans hp).trans (List.mergeSort_perm l₂ _).symm)
    (sortStrings_sorted l₁) (sortStrings_sorted l₂)

/-- Claim C2 amended: the hash input (the sorted comma-joined file list) is
invariant under every permutation of the files, and the full group name is
invariant under those permutations that keep the first file in place; the
counterexample shows the name is not invariant under arbitrary permutation
because `flatten(self.files[0])` prefixes the unsorted first element. -/
theorem group_name_sorted_hash_invariance (g1 g2 : FileGroup)
    (hp : g1.files.Perm g2.files) :
    sortedJoin g1.files = sortedJoin g2.files
    ∧ (g1.files.head? = g2.files.head? → g1.group_name = g2.group_name) := by
  have hsort := sortStrings_perm_eq hp
  constructor
  · simp [sortedJoin, hsort]
  · intro hh
    have hlen : g1.files.length = g2.files.length := hp.length_eq
    simp [FileGroup.group_name, hlen, hh, FileEntry.group_name, sortedJoin, hsort]

/-- Witness for C2's amended theorem: permuting the tail of a three-file
group keeps both the hash input and the group name. -/
theorem group_name_sorted_hash_invariance_witness :
    (["a", "b", "c"] : List String).Perm ["a", "c", "b"]
    ∧ sortedJoin ["a", "b", "c"] = sortedJoin ["a", "c", "b"]
    ∧ FileGroup.group_name ⟨["a", "b", "c"], "?"⟩
        = FileGroup.group_name ⟨["a", "c", "b"], "?"⟩ := by
  have hp : (["a", "b", "c"] : List String).Perm ["a", "c", "b"] := by decide
  have h := group_name_sorted_hash_invariance ⟨["a", "b", "c"], "?"⟩
    ⟨["a", "c", "b"], "?"⟩ hp
  exact ⟨hp, h.1, h.2 rfl⟩

/-- Counterexample for C2 as stated: the two-file group {a, b} listed as
["a","b"] and as ["b","a"] is the same file set, yet group_name differs —
the sorted hash suffix agrees but the prefix is the unsorted first file. -/
theorem group_name_permutation_counterexample :
    (["a", "b"] : List String).Perm ["b", "a"]
    ∧ FileGroup.group_name ⟨["a", "b"], "?"⟩ ≠ FileGroup.group_name ⟨["b", "a"], "?"⟩ := by
  constructor
  · decide
  · have h1 : FileGroup.group_name ⟨["a", "b"], "?"⟩
        = "a" ++ "-" ++ sha256hex8 (sortedJoin ["a", "b"]) := rfl
    have h2 : FileGroup.group_name ⟨["b", "a"], "?"⟩
        = "b" ++ "-" ++ sha256hex8 (sortedJoin ["b", "a"]) := rfl
    have hperm : (["b", "a"] : List String).Perm ["a", "b"] := by decide
    have hs : sortedJoin ["b", "a"] = sortedJoin ["a", "b"] := by
      simp [sortedJoin, sortStrings_perm_eq hperm]
    rw [h1, h2, hs]
    intro heq
    have hdata := congrArg String.data heq
    simp only [String.data_append] at hdata
    have : "a".data = ['a'] := rfl
    simp [this, show "b".data = ['b'] from rfl] at hdata

/-! ### Lemmas: the merge dict model -/

/-- Setting a result does not change the group identity. -/
theorem group_name_withResult (e : ManifestEntry) (r : String) :
    (e.withResult r).group_name = e.group_name := by
  cases e <;> rfl

/-- Setting the same result twice is the same as setting it once. -/
theorem withResult_idem (e : ManifestEntry) (r : String) :
    (e.withResult r).withResult r = e.withResult r := by
  cases e <;> rfl

/-- One merge-loop iteration acts pointwise on the dict pairs. -/
theorem mergeStep_eq_map (d : List (String × ManifestEntry)) (f : ManifestEntry) :
    mergeStep d f = d.map (passPointwise f) := by
  by_cases hp : f.result = "pass"
  · by_cases hc : containsKey d f.group_name = true
    · have : mergeStep d f = setPass d f.group_name := by
        simp [mergeStep, hp, hc]
      rw [this]
      apply List.map_congr_left
      intro p _
      by_cases hpk : p.1 = f.group_name <;> simp [setPass, passPointwise, hp, hpk]
    · have hstep : mergeStep d f = d := by
        simp [mergeStep, hc]
      have hnk : ∀ p ∈ d, p.1 ≠ f.group_name := by
        intro p hpd hpk
        apply hc
        simp only [containsKey]
        have : p.1 ∈ d.map Prod.fst := List.mem_map.mpr ⟨p, hpd, rfl⟩
        rw [hpk] at this
        simpa using this
      have hmap : d.map (passPointwise f) = d.map id :=
        List.map_congr_left (fun p hpd => by simp [passPointwise, hnk p hpd])
      rw [hstep, hmap, List.map_id]
  · have hstep : mergeStep d f = d := by
      simp [mergeStep, hp]
    have hmap : d.map (passPointwise f) = d.map id :=
      List.map_congr_left (fun p _ => by simp [passPointwise, hp])
    rw [hstep, hmap, List.map_id]

/-- Folding merge-loop iterations acts pointwise on the dict pairs. -/
theorem foldl_mergeStep_eq_map (gs : List ManifestEntry) (d : List (String × ManifestEntry)) :
    gs.foldl mergeStep d = d.map (fun p => gs.foldl (fun q g => passPointwise g q) p) := by
  induction gs generalizing d with
  | nil => simp
  | cons g gs ih =>
    rw [List.foldl_cons, mergeStep_eq_map, ih, List.map_map]
    simp only [List.foldl_cons]
    rfl

/-- A pair already upgraded to "pass" is a fixed point of the merge loop. -/
theorem foldl_passPointwise_pass (gs : List ManifestEntry) (k : String) (e : ManifestEntry) :
    gs.foldl (fun q g => passPointwise g q) (k, e.withResult "pass") = (k, e.withResult "pass") := by
  induction gs with
  | nil => rfl
  | cons g gs ih =>
    rw [List.foldl_cons]
    have hfix : passPointwise g (k, e.withResult "pass") = (k, e.withResult "pass") := by
      simp only [passPointwise]
      split <;> simp [withResult_idem]
    rw [hfix, ih]

/-- The merge loop upgrades one pair exactly when some incoming pass entry
carries its key. -/
theorem foldl_passPointwise_char (gs : List ManifestEntry) (k : String) (e : ManifestEntry) :
    gs.foldl (fun q g => passPointwise g q) (k, e)
      = (k, if gs.any (fun g => g.result == "pass" && k == g.group_name)
            then e.withResult "pass" else e) := by
  induction gs with
  | nil => simp
  | cons g gs ih =>
    rw [List.foldl_cons]
    by_cases hc : (g.result == "pass" && k == g.group_name) = true
    · have hpw : passPointwise g (k, e) = (k, e.withResult "pass") := by
        simp only [passPointwise]
        rw [if_pos hc]
      rw [hpw, foldl_passPointwise_pass]
      simp [List.any_cons, hc]
    · have hpw : passPointwise g (k, e) = (k, e) := by
        simp only [passPointwise]
        rw [if_neg hc]
      rw [hpw, ih]
      simp [List.any_cons, hc]

/-- Characterization of the files of the merged manifest via the dict built
from the base. -/
theorem merge_files_char (m1 m2 : Manifest) :
    (merge_manifests m1 m2).files
      = (dictOfFiles m1.files).map (fun p =>
          if m2.files.any (fun g => g.result == "pass" && p.1 == g.group_name)
          then p.2.withResult "pass" else p.2) := by
  show (m2.files.foldl mergeStep (dictOfFiles m1.files)).map Prod.snd = _
  rw [foldl_mergeStep_eq_map, List.map_map]
  apply List.map_congr_left
  intro p _
  cases p with
  | mk k e =>
    simp only [Function.comp_apply, foldl_passPointwise_char]

/-- A pair of the dict after an assignment is the assigned pair or an
untouched pair with a different key. -/
theorem mem_dictInsert {d : List (String × ManifestEntry)} {k : String}
    {v : ManifestEntry} {p : String × ManifestEntry} (hp : p ∈ dictInsert d k v) :
    p = (k, v) ∨ (p ∈ d ∧ p.1 ≠ k) := by
  unfold dictInsert at hp
  by_cases hc : (d.map Prod.fst).contains k = true
  · rw [if_pos hc] at hp
    obtain ⟨q, hq, hqe⟩ := List.mem_map.mp hp
    by_cases hqk : q.1 = k
    · left
      rw [← hqe]
      simp [hqk]
    · right
      rw [if_neg hqk] at hqe
      rw [← hqe]
      exact ⟨hq, hqk⟩
  · rw [if_neg hc] at hp
    rcases List.mem_append.mp hp with h | h
    · right
      refine ⟨h, fun hk => hc ?_⟩
      have : p.1 ∈ d.map Prod.fst := List.mem_map.mpr ⟨p, h, rfl⟩
      rw [hk] at this
      simpa using this
    · left
      simpa using h

/-- Keys of the dict after an assignment: unchanged for an existing key,
appended for a new one. -/
theorem map_fst_dictInsert (d : List (String × ManifestEntry)) (k : String)
    (v : ManifestEntry) :
    (dictInsert d k v).map Prod.fst
      = if (d.map Prod.fst).contains k then d.map Prod.fst
        else d.map Prod.fst ++ [k] := by
  unfold dictInsert
  by_cases hc : (d.map Prod.fst).contains k = true
  · rw [if_pos hc, if_pos hc, List.map_map]
    apply List.map_congr_left
    intro p _
    by_cases hpk : p.1 = k <;> simp [hpk]
  · rw [if_neg hc, if_neg hc, List.map_append]
    rfl

/-- The dict construction keeps its keys pairwise distinct. -/
theorem foldl_dictInsert_keys_nodup (files : List ManifestEntry) :
    ∀ d : List (String × ManifestEntry), (d.map Prod.fst).Nodup →
      ((files.foldl (fun d f => dictInsert d f.group_name f) d).map Prod.fst).Nodup := by
  induction files with
  | nil => intro d hd; simpa using hd
  | cons f fs ih =>
    intro d hd
    rw [List.foldl_cons]
    apply ih
    rw [map_fst_dictInsert]
    by_cases hc : (d.map Prod.fst).contains f.group_name = true
    · rw [if_pos hc]; exact hd
    · rw [if_neg hc]
      refine List.Nodup.append hd (List.nodup_singleton _) ?_
      rw [List.disjoint_singleton]
      simpa using hc

/-- Keys of the dict built from the base files are pairwise distinct. -/
theorem dictOfFiles_keys_nodup (files : List ManifestEntry) :
    ((dictOfFiles files).map Prod.fst).Nodup :=
  foldl_dictInsert_keys_nodup files [] (by simp)

/-- Every dict pair stores an entry under its own group identity. -/
theorem foldl_dict_pair_name (files : List ManifestEntry) :
    ∀ d : List (String × ManifestEntry), (∀ p ∈ d, p.2.group_name = p.1) →
      ∀ p ∈ files.foldl (fun d f => dictInsert d f.group_name f) d,
        p.2.group_name = p.1 := by
  induction files with
  | nil => intro d hd p hp; exact hd p (by simpa using hp)
  | cons f fs ih =>
    intro d hd p hp
    rw [List.foldl_cons] at hp
    refine ih _ ?_ p hp
    intro q hq
    rcases mem_dictInsert hq with h | ⟨h, _⟩
    · rw [h]
    · exact hd q h

/-- Every pair of the base dict stores an entry under its own identity. -/
theorem dictOfFiles_pair_name (files : List ManifestEntry) :
    ∀ p ∈ dictOfFiles files, p.2.group_name = p.1 :=
  foldl_dict_pair_name files [] (by simp)

/-- Folding the last-match scan from any accumulator. -/
theorem lastWith_foldl (fs : List ManifestEntry) (k : String) :
    ∀ a : Option ManifestEntry,
      fs.foldl (fun acc f => if f.group_name == k then some f else acc) a
        = (lastWith fs k).elim a some := by
  induction fs with
  | nil => intro a; rfl
  | cons f fs ih =>
    intro a
    rw [List.foldl_cons, ih]
    have hl : lastWith (f :: fs) k
        = (lastWith fs k).elim (if f.group_name == k then some f else none) some := by
      show fs.foldl _ (if f.group_name == k then some f else none) = _
      rw [ih]
    rw [hl]
    cases hcase : lastWith fs k
    · split <;> rfl
    · simp

/-- Unfolding the last-match scan over a cons. -/
theorem lastWith_cons (f : ManifestEntry) (fs : List ManifestEntry) (k : String) :
    lastWith (f :: fs) k
      = (lastWith fs k).elim (if f.group_name == k then some f else none) some := by
  show fs.foldl _ (if f.group_name == k then some f else none) = _
  rw [lastWith_foldl]

/-- A last-match hit is a member carrying the requested identity. -/
theorem lastWith_mem {fs : List ManifestEntry} {k : String} {f : ManifestEntry}
    (h : lastWith fs k = some f) : f ∈ fs ∧ f.group_name = k := by
  induction fs with
  | nil => simp [lastWith] at h
  | cons g gs ih =>
    rw [lastWith_cons] at h
    cases hgs : lastWith gs k with
    | some x =>
      rw [hgs] at h
      simp only [Option.elim] at h
      obtain ⟨hx1, hx2⟩ := ih (hgs.trans (congrArg some (Option.some.inj h)))
      exact ⟨List.mem_cons_of_mem _ hx1, hx2⟩
    | none =>
      rw [hgs] at h
      simp only [Option.elim] at h
      by_cases hgk : (g.group_name == k) = true
      · rw [if_pos hgk] at h
        have := Option.some.inj h
        subst this
        exact ⟨List.mem_cons_self _ _, by simpa using hgk⟩
      · rw [if_neg hgk] at h
        cases h

/-- Every dict pair stores the last base entry with its key. -/
theorem foldl_dict_lastWith (files : List ManifestEntry) :
    ∀ d : List (String × ManifestEntry),
      ∀ p ∈ files.foldl (fun d f => dictInsert d f.group_name f) d,
        lastWith files p.1 = some p.2 ∨ (lastWith files p.1 = none ∧ p ∈ d) := by
  induction files with
  | nil =>
    intro d p hp
    right
    exact ⟨rfl, by simpa using hp⟩
  | cons f fs ih =>
    intro d p hp
    rw [List.foldl_cons] at hp
    rcases ih _ p hp with h | ⟨hnone, hmem⟩
    · left
      rw [lastWith_cons, h]
      rfl
    · rcases mem_dictInsert hmem with he | ⟨hd, hne⟩
      · left
        subst he
        rw [lastWith_cons, hnone]
        simp
      · right
        refine ⟨?_, hd⟩
        rw [lastWith_cons, hnone]
        have hf : f.group_name ≠ p.1 := fun hh => hne hh.symm
        have hbe : (f.group_name == p.1) = false := by simp [hf]
        simp [hbe]

/-- Pairs of the base dict are exactly last occurrences. -/
theorem dictOfFiles_lastWith (files : List ManifestEntry)
    (p : String × ManifestEntry) (hp : p ∈ dictOfFiles files) :
    lastWith files p.1 = some p.2 := by
  rcases foldl_dict_lastWith files [] p hp with h | ⟨_, hmem⟩
  · exact h
  · simp at hmem

/-- Key membership after an assignment. -/
theorem containsKey_dictInsert (d : List (String × ManifestEntry)) (j : String)
    (v : ManifestEntry) (k : String) :
    containsKey (dictInsert d j v) k = (containsKey d k || (j == k)) := by
  unfold containsKey
  rw [map_fst_dictInsert]
  by_cases hc : (d.map Prod.fst).contains j = true
  · rw [if_pos hc]
    by_cases hjk : j = k
    · subst hjk
      simp_all
    · have h2 : (j == k) = false := by simp [hjk]
      rw [h2, Bool.or_false]
  · rw [if_neg hc]
    by_cases hjk : j = k
    · subst hjk
      simp [List.mem_append]
    · have h2 : (j == k) = false := by simp [hjk]
      rw [h2, Bool.or_false]
      by_cases hk : k ∈ d.map Prod.fst
      · simp [List.mem_append, hk]
      · have hkj : ¬(k = j) := fun hh => hjk hh.symm
        simp [List.mem_append, hk, hkj]

/-- Key membership of the folded dict. -/
theorem containsKey_foldl (files : List ManifestEntry) :
    ∀ (d : List (String × ManifestEntry)) (k : String),
      containsKey (files.foldl (fun d f => dictInsert d f.group_name f) d) k
        = (containsKey d k || files.any (fun f => f.group_name == k)) := by
  induction files with
  | nil => simp
  | cons f fs ih =>
    intro d k
    rw [List.foldl_cons, ih, containsKey_dictInsert]
    simp [List.any_cons, Bool.or_assoc]

/-- The base dict holds exactly the identities occurring in the base. -/
theorem containsKey_dictOfFiles (files : List ManifestEntry) (k : String) :
    containsKey (dictOfFiles files) k = files.any (fun f => f.group_name == k) := by
  have := containsKey_foldl files [] k
  simpa [dictOfFiles, containsKey] using this

/-- With pairwise distinct identities the dict is the pairing of the files. -/
theorem foldl_dictInsert_nodup_eq (files : List ManifestEntry) :
    ∀ d : List (String × ManifestEntry),
      (files.map ManifestEntry.group_name).Nodup →
      (∀ f ∈ files, containsKey d f.group_name = false) →
      files.foldl (fun d f => dictInsert d f.group_name f) d
        = d ++ files.map (fun f => (f.group_name, f)) := by
  induction files with
  | nil => simp
  | cons f fs ih =>
    intro d hnd hdisj
    rw [List.foldl_cons]
    have hcf : containsKey d f.group_name = false := hdisj f (List.mem_cons_self _ _)
    have hins : dictInsert d f.group_name f = d ++ [(f.group_name, f)] := by
      unfold dictInsert
      unfold containsKey at hcf
      rw [hcf]
      simp
    rw [hins, ih (d ++ [(f.group_name, f)]) (by simpa using hnd.of_cons) ?_]
    · simp
    · intro g hg
      unfold containsKey
      rw [List.map_append]
      have h1 : (d.map Prod.fst).contains g.group_name = false := by
        have := hdisj g (List.mem_cons_of_mem _ hg)
        simpa [containsKey] using this
      have h2 : f.group_name ≠ g.group_name := by
        intro hfg
        have hfmem : f.group_name ∈ fs.map ManifestEntry.group_name :=
          List.mem_map.mpr ⟨g, hg, hfg.symm⟩
        rw [List.map_cons] at hnd
        exact (List.nodup_cons.mp hnd).1 hfmem
      simp_all

/-- With pairwise distinct identities the base dict is the pairing map. -/
theorem dictOfFiles_of_nodup (files : List ManifestEntry)
    (h : (files.map ManifestEntry.group_name).Nodup) :
    dictOfFiles files = files.map (fun f => (f.group_name, f)) := by
  simpa [dictOfFiles] using foldl_dictInsert_nodup_eq files [] h (fun f _ => rfl)

/-- Claim C1: for manifests whose base entries have pairwise distinct group
identities (and spec-wellformed, non-empty groups), merging returns exactly
the base entries in order: an entry matched by an incoming "pass" entry is
set to "pass", every other entry — in particular every entry already
"pass" — is unchanged, and incoming-only entries are not added. -/
theorem merge_manifests_monotone_on_nodup_base (m1 m2 : Manifest)
    (hnd : (m1.files.map ManifestEntry.group_name).Nodup)
    (hwf : ∀ e ∈ m1.files ++ m2.files, entryWF e = true) :
    (merge_manifests m1 m2).files = m1.files.map (mergeSpecEntry m2.files) := by
  rw [merge_files_char, dictOfFiles_of_nodup _ hnd, List.map_map]
  rfl

/-- Witness for C1: a base with a failed, a passed and an unknown entry,
merged with an incoming manifest that passes the first, fails the third and
adds a fourth: the first is upgraded, the second stays "pass", the third is
untouched and the incoming-only entry is dropped. -/
theorem merge_manifests_monotone_witness :
    ((([ManifestEntry.entry ⟨"a.txt", "fail"⟩, ManifestEntry.entry ⟨"b.txt", "pass"⟩,
        ManifestEntry.entry ⟨"c.txt", "?"⟩] : List ManifestEntry).map
        ManifestEntry.group_name).Nodup)
    ∧ (merge_manifests
        { files := [ManifestEntry.entry ⟨"a.txt", "fail"⟩,
                    ManifestEntry.entry ⟨"b.txt", "pass"⟩,
                    ManifestEntry.entry ⟨"c.txt", "?"⟩] }
        { files := [ManifestEntry.entry ⟨"a.txt", "pass"⟩,
                    ManifestEntry.entry ⟨"d.txt", "pass"⟩,
                    ManifestEntry.entry ⟨"c.txt", "fail"⟩] }).files
      = [ManifestEntry.entry ⟨"a.txt", "pass"⟩, ManifestEntry.entry ⟨"b.txt", "pass"⟩,
         ManifestEntry.entry ⟨"c.txt", "?"⟩] := by
  refine ⟨by decide, ?_⟩
  rw [merge_manifests_monotone_on_nodup_base _ _ (by decide) (by decide)]
  decide

/-- Claim C9: merged output never holds two entries of the same identity;
each surviving entry is the last base entry of its identity, possibly
upgraded to "pass"; the output identities are exactly the base identities;
and with pairwise distinct base identities no entry is lost. -/
theorem merge_collapses_duplicate_identities (m1 m2 : Manifest) :
    ((merge_manifests m1 m2).files.map ManifestEntry.group_name).Nodup
    ∧ (∀ e ∈ (merge_manifests m1 m2).files,
        ∃ f, lastWith m1.files e.group_name = some f
          ∧ (e = f ∨ e = f.withResult "pass"))
    ∧ (∀ k : String, (∃ e ∈ (merge_manifests m1 m2).files, e.group_name = k)
          ↔ ∃ f ∈ m1.files, f.group_name = k)
    ∧ ((m1.files.map ManifestEntry.group_name).Nodup →
        (merge_manifests m1 m2).files.length = m1.files.length) := by
  have hchar := merge_files_char m1 m2
  have hname : ∀ p ∈ dictOfFiles m1.files,
      (if m2.files.any (fun g => g.result == "pass" && p.1 == g.group_name)
       then p.2.withResult "pass" else p.2).group_name = p.1 := by
    intro p hp
    have hwfp := dictOfFiles_pair_name m1.files p hp
    split
    · rw [group_name_withResult]
      exact hwfp
    · exact hwfp
  refine ⟨?_, ?_, ?_, ?_⟩
  · rw [hchar, List.map_map]
    have heq := List.map_congr_left (l := dictOfFiles m1.files)
      (f := ManifestEntry.group_name ∘ fun p =>
        if m2.files.any (fun g => g.result == "pass" && p.1 == g.group_name)
        then p.2.withResult "pass" else p.2)
      (g := Prod.fst) (fun p hp => hname p hp)
    rw [heq]
    exact dictOfFiles_keys_nodup m1.files
  · intro e he
    rw [hchar] at he
    obtain ⟨p, hp, hpe⟩ := List.mem_map.mp he
    have hegn : e.group_name = p.1 := by
      rw [← hpe]
      exact hname p hp
    refine ⟨p.2, ?_, ?_⟩
    · rw [hegn]
      exact dictOfFiles_lastWith m1.files p hp
    · rw [← hpe]
      split
      · right; rfl
      · left; rfl
  · intro k
    constructor
    · rintro ⟨e, he, hek⟩
      rw [hchar] at he
      obtain ⟨p, hp, hpe⟩ := List.mem_map.mp he
      have hegn : e.group_name = p.1 := by
        rw [← hpe]
        exact hname p hp
      have hlast := dictOfFiles_lastWith m1.files p hp
      obtain ⟨hmem, hgn⟩ := lastWith_mem hlast
      exact ⟨p.2, hmem, by rw [hgn, ← hegn, hek]⟩
    · rintro ⟨f, hf, hfk⟩
      have hck : containsKey (dictOfFiles m1.files) k = true := by
        rw [containsKey_dictOfFiles]
        exact List.any_eq_true.mpr ⟨f, hf, by simp [hfk]⟩
      have hkm : k ∈ (dictOfFiles m1.files).map Prod.fst := by
        simpa [containsKey] using hck
      obtain ⟨p, hp, hpk⟩ := List.mem_map.mp hkm
      refine ⟨if m2.files.any (fun g => g.result == "pass" && p.1 == g.group_name)
              then p.2.withResult "pass" else p.2, ?_, ?_⟩
      · rw [hchar]
        exact List.mem_map.mpr ⟨p, hp, rfl⟩
      · rw [hname p hp]
        exact hpk
  · intro hnd
    rw [hchar, dictOfFiles_of_nodup _ hnd, List.length_map, List.length_map]

/-- Witness for C9: a base listing "a.txt" twice collapses to one entry
per identity, the survivor for "a.txt" being its last base entry; a base
with distinct identities keeps its length. -/
theorem merge_collapses_duplicate_identities_witness :
    ((merge_manifests
        { files := [ManifestEntry.entry ⟨"a.txt", "fail"⟩,
                    ManifestEntry.entry ⟨"b.txt", "?"⟩,
                    ManifestEntry.entry ⟨"a.txt", "?"⟩] }
        { files := [] }).files.map ManifestEntry.group_name).Nodup
    ∧ (∃ f, lastWith [ManifestEntry.entry ⟨"a.txt", "fail"⟩,
                      ManifestEntry.entry ⟨"b.txt", "?"⟩,
                      ManifestEntry.entry ⟨"a.txt", "?"⟩]
              (ManifestEntry.entry (⟨"a.txt", "?"⟩ : FileEntry)).group_name = some f
          ∧ (ManifestEntry.entry (⟨"a.txt", "?"⟩ : FileEntry) = f
              ∨ ManifestEntry.entry (⟨"a.txt", "?"⟩ : FileEntry) = f.withResult "pass"))
    ∧ (merge_manifests
        { files := [ManifestEntry.entry ⟨"a.txt", "fail"⟩,
                    ManifestEntry.entry ⟨"b.txt", "?"⟩] }
        { files := [] }).files.length = 2 := by
  refine ⟨(merge_collapses_duplicate_identities _ _).1, ?_, ?_⟩
  · exact (merge_collapses_duplicate_identities
      { files := [ManifestEntry.entry ⟨"a.txt", "fail"⟩,
                  ManifestEntry.entry ⟨"b.txt", "?"⟩,
                  ManifestEntry.entry ⟨"a.txt", "?"⟩] }
      { files := [] }).2.1 (ManifestEntry.entry ⟨"a.txt", "?"⟩) (by decide)
  · have h := (merge_collapses_duplicate_identities
      { files := [ManifestEntry.entry ⟨"a.txt", "fail"⟩,
                  ManifestEntry.entry ⟨"b.txt", "?"⟩] }
      { files := [] }).2.2.2 (by decide)
    simpa using h

/-! ### Lemmas: manifest parsing and the scheduler -/

/-- An array of string literals validates to the underlying strings. -/
theorem stringList_map_str (fs : List String) :
    stringList (fs.map Json.str) = some fs := by
  induction fs with
  | nil => rfl
  | cons s rest ih => simp [stringList, ih]

/-- Claim C6: an element of `files` carrying a "filename" key validates as
a FileEntry and one carrying a "files" key as a FileGroup; an unset result
becomes "?", and an unset system_prompt, verify_cmd or pre_verify_cmd takes
the documented command-template default. -/
theorem manifest_parse_shapes_and_defaults (fn r : String) (fs : List String) :
    parseEntry (.obj [("filename", .str fn)]) = some (.entry ⟨fn, "?"⟩)
    ∧ parseEntry (.obj [("filename", .str fn), ("result", .str r)])
        = some (.entry ⟨fn, r⟩)
    ∧ parseEntry (.obj [("files", .arr (fs.map .str))]) = some (.group ⟨fs, "?"⟩)
    ∧ parseEntry (.obj [("files", .arr (fs.map .str)), ("result", .str r)])
        = some (.group ⟨fs, r⟩)
    ∧ parseManifest (.obj [("files", .arr [.obj [("filename", .str fn)],
                                           .obj [("files", .arr (fs.map .str))]])])
        = some ⟨"", "", "", [.entry ⟨fn, "?"⟩, .group ⟨fs, "?"⟩],
                "{project_dir}/system_prompt.md", "{py} {project_dir}/verify.py",
                "{py} {project_dir}/verify.py --pre", ""⟩ := by
  refine ⟨?_, ?_, ?_, ?_, ?_⟩ <;>
    simp [parseEntry, parseFileEntry, parseFileGroup, parseManifest, parseFiles,
          parseEntries, parseStrField, getField, List.find?, stringList_map_str]

/-- The merge loop leaves an empty dict empty. -/
theorem mergeStep_nil (g : ManifestEntry) : mergeStep [] g = [] := by
  unfold mergeStep
  split <;> rfl

/-- Merging from a base without entries yields no entries, whatever the
incoming manifest holds. -/
theorem merge_empty_base_files (m1 m2 : Manifest) (h : m1.files = []) :
    (merge_manifests m1 m2).files = [] := by
  rw [merge_files_char, h]
  rfl

/-- Claim C7: with no command-line files and no manifest entries the run
aborts before the status registry exists: no event is emitted, the file
system is untouched, and the result list is empty. -/
theorem empty_work_list_aborts (manifest0 : Manifest)
    (branches : List (String × String × String × String)) (resume : Bool)
    (files : Option (List String)) (only_failed : Bool)
    (outcomes : Nat → AttemptOutcome) (order : List Nat)
    (target_sha my_sha ts : String) (fs0 : FileSys)
    (hm : manifest0.files = []) (hf : files = none ∨ files = some []) :
    run manifest0 branches resume files only_failed outcomes order
      target_sha my_sha ts fs0 = ⟨[], [], fs0⟩ := by
  have hem : (effective_manifest manifest0 branches resume).files = [] := by
    unfold effective_manifest
    split
    · exact merge_empty_base_files _ _ hm
    · exact hm
  have hil : initial_file_list (effective_manifest manifest0 branches resume) files
      = [] := by
    rcases hf with h | h <;> subst h <;> simp [initial_file_list, hem]
  simp [run, hil]

/-- Witness for C7: a concrete empty manifest with resume enabled and a
non-empty git branch listing still aborts with no effects. -/
theorem empty_work_list_aborts_witness :
    ({} : Manifest).files = []
    ∧ run {} [("sha1", "ai-migrator/x.txt", "pass", "msg")] true none false
        (fun _ => AttemptOutcome.success) [] "t" "m" "20250101-000000"
        [("keep.json", {})]
      = ⟨[], [], [("keep.json", {})]⟩ :=
  ⟨rfl, empty_work_list_aborts {} [("sha1", "ai-migrator/x.txt", "pass", "msg")]
    true none false (fun _ => AttemptOutcome.success) [] "t" "m" "20250101-000000"
    [("keep.json", {})] rfl (Or.inl rfl)⟩

/-- Claim C3: the attempt handler records "pass" on normal return,
"fail-pre-verify" on FailedPreVerification, "fail" on any other exception,
always for exactly the attempted file group; and every result a run records
is one of these three values. -/
theorem scheduler_records_three_results :
    (∀ (g : FileGroup) (tn : String) (o : AttemptOutcome),
        (process_one_fileset g tn o).2 = ⟨g.files, new_result o⟩)
    ∧ new_result .success = "pass"
    ∧ new_result .failedPreVerification = "fail-pre-verify"
    ∧ (∀ msg, new_result (.error msg) = "fail")
    ∧ (∀ (manifest0 : Manifest) (branches : List (String × String × String × String))
         (resume : Bool) (files : Option (List String)) (only_failed : Bool)
         (outcomes : Nat → AttemptOutcome) (order : List Nat)
         (target_sha my_sha ts : String) (fs0 : FileSys),
        ∀ r ∈ (run manifest0 branches resume files only_failed outcomes order
                 target_sha my_sha ts fs0).results,
          r.result = "pass" ∨ r.result = "fail" ∨ r.result = "fail-pre-verify") := by
  refine ⟨fun g tn o => rfl, rfl, rfl, fun msg => rfl, ?_⟩
  intro m0 br rs fl of oc od t1 t2 ts fs0 r hr
  by_cases hemp : (initial_file_list (effective_manifest m0 br rs) fl).isEmpty
  · simp [run, hemp] at hr
  · simp only [run, hemp, Bool.false_eq_true, if_false, run_tasks, List.map_map] at hr
    obtain ⟨i, _, hri⟩ := List.mem_map.mp hr
    have : r.result = new_result (oc i) := by
      rw [← hri]
      rfl
    rw [this]
    cases oc i with
    | success => left; rfl
    | failedPreVerification => right; right; rfl
    | error msg => right; left; rfl

/-- Witness for C3: one run whose single attempt returns normally records
"pass", and a handler invocation on an erroring attempt records "fail". -/
theorem scheduler_records_three_results_witness :
    (process_one_fileset ⟨["a.txt"], "?"⟩ "a.txt" (.error "boom")).2
      = ⟨["a.txt"], "fail"⟩
    ∧ ((⟨["a.txt"], "pass"⟩ : FileGroup).result = "pass"
        ∨ (⟨["a.txt"], "pass"⟩ : FileGroup).result = "fail"
        ∨ (⟨["a.txt"], "pass"⟩ : FileGroup).result = "fail-pre-verify") :=
  ⟨scheduler_records_three_results.1 ⟨["a.txt"], "?"⟩ "a.txt" (.error "boom"),
   scheduler_records_three_results.2.2.2.2
     { files := [ManifestEntry.entry ⟨"a.txt", "?"⟩] } [] false none false
     (fun _ => AttemptOutcome.success) [0] "t" "m" "20250101-000000" []
     ⟨["a.txt"], "pass"⟩ (by decide)⟩

/-- Indexing a list by the full range recovers a map over its entries. -/
theorem map_getD_range {α β : Type} (l : List α) (f : α → β) (d : α) :
    (List.range l.length).map (fun i => f (l.getD i d)) = l.map f := by
  induction l with
  | nil => simp
  | cons a t ih =>
    rw [List.length_cons, List.range_succ_eq_map, List.map_cons, List.map_map]
    refine congrArg₂ _ rfl ?_
    simpa [Function.comp_def, List.getD, List.getElem?_cons_succ] using ih

/-- Registration emits exactly one status tracker per work-list group. -/
theorem countP_setup_events (w : List FileGroup) :
    (setup_events w).countP Event.isAddStatus = w.length := by
  induction w with
  | nil => rfl
  | cons g t ih =>
    simp [setup_events, List.flatMap_cons, List.countP_append, List.countP_cons,
          Event.isAddStatus] at ih ⊢
    omega

/-- An attempt handler emits no status-tracker registration. -/
theorem countP_process_events (g : FileGroup) (tn : String) (o : AttemptOutcome) :
    ((process_one_fileset g tn o).1).countP Event.isAddStatus = 0 := by
  cases o <;>
    simp [process_one_fileset, Event.isAddStatus, List.countP_cons, List.countP_append]

/-- The attempt tasks emit no status-tracker registration. -/
theorem countP_run_tasks (w : List FileGroup) (oc : Nat → AttemptOutcome)
    (order : List Nat) :
    ((run_tasks w oc order).1).countP Event.isAddStatus = 0 := by
  induction order with
  | nil => rfl
  | cons i t ih =>
    simp only [run_tasks, process_one_with_sem, List.map_cons, List.flatMap_cons,
      List.countP_append] at ih ⊢
    rw [countP_process_events, ih]

/-- Claim C4: whatever each attempt does — including raising arbitrary
exceptions — the scheduler registers one status tracker per work-list
group, converts every outcome into a result at the task boundary, joins
all tasks, and returns exactly one FileGroup per work-list group (in
completion order); no attempt outcome aborts siblings or the scheduler. -/
theorem scheduler_isolates_attempt_failures (manifest0 : Manifest)
    (branches : List (String × String × String × String)) (resume : Bool)
    (files : Option (List String)) (only_failed : Bool)
    (outcomes : Nat → AttemptOutcome) (order : List Nat)
    (target_sha my_sha ts : String) (fs0 : FileSys)
    (horder : order.Perm (List.range
      (work_list (effective_manifest manifest0 branches resume) files
        only_failed).length)) :
    (run manifest0 branches resume files only_failed outcomes order
        target_sha my_sha ts fs0).results
      = order.map (fun i =>
          FileGroup.mk
            ((work_list (effective_manifest manifest0 branches resume) files
                only_failed).getD i ⟨[], "?"⟩).files
            (new_result (outcomes i)))
    ∧ (run manifest0 branches resume files only_failed outcomes order
        target_sha my_sha ts fs0).results.length
      = (work_list (effective_manifest manifest0 branches resume) files
          only_failed).length
    ∧ ((run manifest0 branches resume files only_failed outcomes order
        target_sha my_sha ts fs0).results.map FileGroup.files).Perm
      ((work_list (effective_manifest manifest0 branches resume) files
          only_failed).map FileGroup.files)
    ∧ (run manifest0 branches resume files only_failed outcomes order
        target_sha my_sha ts fs0).events.countP Event.isAddStatus
      = (work_list (effective_manifest manifest0 branches resume) files
          only_failed).length := by
  by_cases hemp : (initial_file_list (effective_manifest manifest0 branches resume)
      files).isEmpty
  · have hinit : initial_file_list (effective_manifest manifest0 branches resume) files
        = [] := List.isEmpty_iff.mp hemp
    have hWnil : work_list (effective_manifest manifest0 branches resume) files
        only_failed = [] := by
      simp [work_list, hinit]
    rw [hWnil] at horder ⊢
    have hord : order = [] := by
      have h0 : order.Perm [] := by simpa using horder
      exact h0.eq_nil
    subst hord
    simp [run, hemp]
  · have hres : (run manifest0 branches resume files only_failed outcomes order
        target_sha my_sha ts fs0).results
        = order.map (fun i =>
            FileGroup.mk
              ((work_list (effective_manifest manifest0 branches resume) files
                  only_failed).getD i ⟨[], "?"⟩).files
              (new_result (outcomes i))) := by
      simp only [run, hemp, Bool.false_eq_true, if_false, run_tasks, List.map_map]
      apply List.map_congr_left
      intro i _
      rfl
    have hev : (run manifest0 branches resume files only_failed outcomes order
        target_sha my_sha ts fs0).events
        = setup_events (work_list (effective_manifest manifest0 branches resume)
            files only_failed)
          ++ (run_tasks (work_list (effective_manifest manifest0 branches resume)
               files only_failed) outcomes order).1 := by
      simp [run, hemp]
    refine ⟨hres, ?_, ?_, ?_⟩
    · rw [hres, List.length_map, horder.length_eq, List.length_range]
    · have hmapeq : (run manifest0 branches resume files only_failed outcomes order
          target_sha my_sha ts fs0).results.map FileGroup.files
          = order.map (fun i =>
              ((work_list (effective_manifest manifest0 branches resume) files
                  only_failed).getD i ⟨[], "?"⟩).files) := by
        rw [hres, List.map_map]
        apply List.map_congr_left
        intro i _
        rfl
      rw [hmapeq,
        ← map_getD_range (work_list (effective_manifest manifest0 branches resume)
            files only_failed) FileGroup.files ⟨[], "?"⟩]
      exact horder.map _
    · rw [hev, List.countP_append, countP_setup_events, countP_run_tasks]
      omega

/-- Witness for C4: two groups, completion order reversed, the second
attempt raising an exception: the run still returns one entry per group,
with the failure recorded as "fail" and the sibling as "pass". -/
theorem scheduler_isolates_attempt_failures_witness :
    (run { files := [ManifestEntry.entry ⟨"a.txt", "?"⟩,
                     ManifestEntry.entry ⟨"b.txt", "?"⟩] } [] false none false
        (fun i => if i == 0 then AttemptOutcome.success else .error "boom")
        [1, 0] "t" "m" "20250101-000000" []).results
      = [⟨["b.txt"], "fail"⟩, ⟨["a.txt"], "pass"⟩]
    ∧ (run { files := [ManifestEntry.entry ⟨"a.txt", "?"⟩,
                       ManifestEntry.entry ⟨"b.txt", "?"⟩] } [] false none false
        (fun i => if i == 0 then AttemptOutcome.success else .error "boom")
        [1, 0] "t" "m" "20250101-000000" []).events.countP Event.isAddStatus = 2 := by
  have h := scheduler_isolates_attempt_failures
    { files := [ManifestEntry.entry ⟨"a.txt", "?"⟩, ManifestEntry.entry ⟨"b.txt", "?"⟩] }
    [] false none false
    (fun i => if i == 0 then AttemptOutcome.success else .error "boom")
    [1, 0] "t" "m" "20250101-000000" [] (by decide)
  refine ⟨?_, ?_⟩
  · rw [h.1]
    decide
  · have h4 := h.2.2.2
    simpa using h4

/-- Rewriting one name leaves reads of other names unchanged. -/
theorem fsRead_map_set (fs : FileSys) (n : String) (c : Manifest) (n' : String)
    (h : n' ≠ n) :
    fsRead (fs.map (fun p => if p.1 = n then (p.1, c) else p)) n' = fsRead fs n' := by
  induction fs with
  | nil => rfl
  | cons p t ih =>
    rw [List.map_cons]
    unfold fsRead
    by_cases hp : p.1 = n
    · rw [@List.find?_cons_of_neg _ (fun q => q.1 == n')
          ((fun q : String × Manifest => if q.1 = n then (q.1, c) else q) p) _
          (by simp [hp]; exact fun hh => h hh.symm),
        @List.find?_cons_of_neg _ (fun q => q.1 == n') p _
          (by simp [hp]; exact fun hh => h hh.symm)]
      exact ih
    · have hhead : (if p.1 = n then (p.1, c) else p) = p := by simp [hp]
      by_cases hpn : (p.1 == n') = true
      · rw [hhead, @List.find?_cons_of_pos _ (fun q => q.1 == n') p _ hpn,
          @List.find?_cons_of_pos _ (fun q => q.1 == n') p _ hpn]
      · rw [hhead, @List.find?_cons_of_neg _ (fun q => q.1 == n') p _ (by simp [hpn]),
          @List.find?_cons_of_neg _ (fun q => q.1 == n') p _ (by simp [hpn])]
        exact ih

/-- Writing a file leaves reads of every other name unchanged. -/
theorem fsRead_fsWrite_ne (fs : FileSys) (n : String) (c : Manifest) (n' : String)
    (h : n' ≠ n) :
    fsRead (fsWrite fs n c) n' = fsRead fs n' := by
  unfold fsWrite
  by_cases hc : (fs.map Prod.fst).contains n = true
  · rw [if_pos hc]
    exact fsRead_map_set fs n c n' h
  · rw [if_neg hc]
    unfold fsRead
    rw [List.find?_append]
    have hnone : List.find? (fun p => p.1 == n') [(n, c)] = none := by
      have : (n == n') = false := by
        simp
        exact fun hh => h hh.symm
      simp [List.find?, this]
    rw [hnone]
    cases List.find? (fun p => p.1 == n') fs <;> rfl

/-- Writing under a fresh name keeps every existing file intact. -/
theorem fsWrite_new_preserves (fs : FileSys) (n : String) (c : Manifest)
    (h : (fs.map Prod.fst).contains n = false) :
    ∀ p ∈ fs, p ∈ fsWrite fs n c := by
  intro p hp
  unfold fsWrite
  rw [h]
  simp only [Bool.false_eq_true, if_false]
  exact List.mem_append_left _ hp

/-- Claim C5 amended: a non-empty run persists the result manifest exactly
once, to `manifest-<ts>.json` derived from the run-end timestamp; files
under any other name are untouched, and when no file of that name already
exists every prior file survives — but the write truncates, so a
pre-existing file bearing the same timestamped name is overwritten (see
the counterexample). -/
theorem manifest_write_single_timestamped (manifest0 : Manifest)
    (branches : List (String × String × String × String)) (resume : Bool)
    (files : Option (List String)) (only_failed : Bool)
    (outcomes : Nat → AttemptOutcome) (order : List Nat)
    (target_sha my_sha ts : String) (fs0 : FileSys)
    (hne : (initial_file_list (effective_manifest manifest0 branches resume)
        files).isEmpty = false) :
    (run manifest0 branches resume files only_failed outcomes order
        target_sha my_sha ts fs0).fs
      = fsWrite fs0 (results_file_name ts)
          (result_manifest (effective_manifest manifest0 branches resume)
            (run manifest0 branches resume files only_failed outcomes order
              target_sha my_sha ts fs0).results target_sha my_sha ts)
    ∧ (∀ n, n ≠ results_file_name ts →
        fsRead (run manifest0 branches resume files only_failed outcomes order
            target_sha my_sha ts fs0).fs n = fsRead fs0 n)
    ∧ ((fs0.map Prod.fst).contains (results_file_name ts) = false →
        ∀ p ∈ fs0, p ∈ (run manifest0 branches resume files only_failed outcomes
            order target_sha my_sha ts fs0).fs) := by
  have hfs : (run manifest0 branches resume files only_failed outcomes order
      target_sha my_sha ts fs0).fs
      = fsWrite fs0 (results_file_name ts)
          (result_manifest (effective_manifest manifest0 branches resume)
            (run manifest0 branches resume files only_failed outcomes order
              target_sha my_sha ts fs0).results target_sha my_sha ts) := by
    simp [run, hne, run_tasks]
  refine ⟨hfs, ?_, ?_⟩
  · intro n hn
    rw [hfs]
    exact fsRead_fsWrite_ne fs0 (results_file_name ts) _ n hn
  · intro hc p hp
    rw [hfs]
    exact fsWrite_new_preserves fs0 (results_file_name ts) _ hc p hp

/-- Witness for C5's amended theorem: a one-group run writes
manifest-20250101-000000.json and leaves the other file untouched. -/
theorem manifest_write_single_timestamped_witness :
    fsRead (run { files := [ManifestEntry.entry ⟨"a.txt", "?"⟩] } [] false none false
        (fun _ => AttemptOutcome.success) [0] "t" "m" "20250101-000000"
        [("keep.json", {})]).fs "keep.json"
      = fsRead [("keep.json", {})] "keep.json" := by
  have h := manifest_write_single_timestamped
    { files := [ManifestEntry.entry ⟨"a.txt", "?"⟩] } [] false none false
    (fun _ => AttemptOutcome.success) [0] "t" "m" "20250101-000000"
    [("keep.json", {})] (by decide)
  exact h.2.1 "keep.json" (by decide)

/-- Counterexample for C5 as stated: a manifest file whose name carries the
same second-resolution timestamp already exists; the run's `open(..., "w")`
truncates it, so its prior content is overwritten. -/
theorem manifest_write_overwrite_counterexample :
    fsRead [("manifest-20250101-000000.json", ({} : Manifest))]
        "manifest-20250101-000000.json" = some {}
    ∧ fsRead (run { files := [ManifestEntry.entry ⟨"a.txt", "?"⟩] } [] false none
          false (fun _ => AttemptOutcome.success) [0] "tsha" "msha" "20250101-000000"
          [("manifest-20250101-000000.json", {})]).fs "manifest-20250101-000000.json"
      ≠ some ({} : Manifest) := by
  exact ⟨rfl, by decide⟩

/-! ### Lemmas: the semaphore bound -/

/-- Reachable scheduler states satisfy the slot-accounting invariant: the
running attempts and the free slots always sum to the semaphore width. -/
theorem sem_invariant {m k : Nat} {s : SemState} (h : SemReachable m k s) :
    countRunning s + s.avail = m := by
  induction h with
  | refl =>
    have h0 : (List.replicate k TaskPhase.waiting).countP (· == TaskPhase.running)
        = 0 := by
      apply List.countP_eq_zero.mpr
      intro a ha
      have ha2 := List.eq_of_mem_replicate ha
      simp [ha2]
    simp [semInit, countRunning, h0]
  | @tail b c hsteps hstep ih =>
    cases hstep with
    | acquire i hw hs =>
      obtain ⟨hi, hval⟩ := List.getElem?_eq_some_iff.mp hw
      simp only [countRunning] at ih ⊢
      rw [List.countP_set _ _ _ _ hi, hval]
      simp only [show ((TaskPhase.waiting == TaskPhase.running) = false) from rfl,
        show ((TaskPhase.running == TaskPhase.running) = true) from rfl]
      simp only [Bool.false_eq_true, if_false, if_true]
      omega
    | finish i hr =>
      obtain ⟨hi, hval⟩ := List.getElem?_eq_some_iff.mp hr
      have hpos : 0 < b.tasks.countP (· == TaskPhase.running) := by
        apply List.countP_pos_iff.mpr
        exact ⟨b.tasks[i], List.getElem_mem hi, by simp [hval]⟩
      simp only [countRunning] at ih ⊢
      rw [List.countP_set _ _ _ _ hi, hval]
      simp only [show ((TaskPhase.running == TaskPhase.running) = true) from rfl,
        show ((TaskPhase.done == TaskPhase.running) = false) from rfl]
      simp only [Bool.false_eq_true, if_false, if_true]
      omega

/-- Claim C8: in every state reachable during a run with concurrency limit
m, at most m attempts hold a semaphore slot and execute concurrently; the
default width max_workers is 8. -/
theorem semaphore_bounds_concurrency :
    (∀ (m k : Nat) (s : SemState), SemReachable m k s → countRunning s ≤ m)
    ∧ max_workers_default = 8 := by
  refine ⟨?_, rfl⟩
  intro m k s h
  have := sem_invariant h
  omega

/-- Witness for C8: with width 1 and two tasks, the state after one
acquisition is reachable and runs at most one attempt. -/
theorem semaphore_bounds_concurrency_witness :
    SemReachable 1 2 ⟨[TaskPhase.running, TaskPhase.waiting], 0⟩
    ∧ countRunning ⟨[TaskPhase.running, TaskPhase.waiting], 0⟩ ≤ 1 := by
  have hstep : SemStep (semInit 1 2) ⟨[TaskPhase.running, TaskPhase.waiting], 0⟩ := by
    have h := SemStep.acquire (semInit 1 2) 0 (by decide) (by decide)
    exact h
  have hr : SemReachable 1 2 ⟨[TaskPhase.running, TaskPhase.waiting], 0⟩ :=
    Relation.ReflTransGen.single hstep
  exact ⟨hr, semaphore_bounds_concurrency.1 1 2 _ hr⟩
